import Mathlib

set_option maxHeartbeats 1000000

/-!
Shallow embedding of `src/modules/data_loader.py` (PortfolioBuilderAPI).

Modelling conventions:
* A pandas `DataFrame` handled by this module always has a `date` column plus
  value columns; it is modelled as `Table` with the date kept structurally
  separate from the (named) value columns.  Row order models the positional
  index, so `reset_index(drop=True)` is implicit.
* Calendar dates are day numbers (days since 1970-01-01, the pandas epoch) as
  `Int`.  A date cell is either still raw text (`DateVal.raw d`, a `%Y-%m-%d`
  string whose parse is day `d`) or an already normalized datetime
  (`DateVal.dt d`); `pd.to_datetime` is `DateVal.parse`.
* Numeric cells are `Option ℚ`: `none` models `NaN`, `some q` a finite value.
* Operations that can raise in pandas (reindexing a duplicate index, a
  positional `df.columns = ...` assignment of the wrong arity, `KeyError` on a
  missing column or config key) return `Option`/`none`.
-/

/-- A numeric cell: `none` is pandas `NaN`. -/
abbrev Cell := Option ℚ

/-- A date cell: raw (unparsed, carrying its denotation) or normalized. -/
inductive DateVal where
  | raw (d : Int)
  | dt (d : Int)
deriving DecidableEq, Repr

/-- The value `pd.to_datetime` produces for this date cell. -/
def DateVal.parse : DateVal → Int
  | .raw d => d
  | .dt d => d

/-- One row of a frame: its date plus the value cells (aligned with the
column-name list of the enclosing `Table`). -/
structure Row where
  date : DateVal
  vals : List Cell
deriving DecidableEq, Repr

/-- A dataframe: names of the value columns and the rows in positional order.
The `date` column of the source frames is kept structurally in each row. -/
structure Table where
  cols : List String
  rows : List Row
deriving DecidableEq, Repr

/-- Default row used with `List.getD`. -/
def dRow : Row := { date := DateVal.dt 0, vals := [] }

/-- Normalize one row's date (`pd.to_datetime` on the `date` column). -/
def normalizeRow (r : Row) : Row := { r with date := DateVal.dt r.date.parse }

/-- Normalize the whole `date` column in place. -/
def normalizeDates (t : Table) : Table := { t with rows := t.rows.map normalizeRow }

/-- Row comparison used by `sort_values("date")`. -/
def rowLE (a b : Row) : Prop := a.date.parse ≤ b.date.parse

instance : DecidableRel rowLE := fun a b => inferInstanceAs (Decidable (a.date.parse ≤ b.date.parse))

instance : IsTotal Row rowLE := ⟨fun a b => Int.le_total a.date.parse b.date.parse⟩

instance : IsTrans Row rowLE := ⟨fun _ _ _ hab hbc => le_trans hab hbc⟩

/-- Embeds `DataLoader.slice_data` (data_loader.py lines 50-69).  The source
mutates its argument: `timeseries["date"] = pd.to_datetime(timeseries["date"])`
assigns the normalized date column on the caller's frame.  The first component
of the result is the caller's frame after the call; the second is the returned
slice (filter `date >= start_date`, filter `date <= end_date`,
`sort_values("date").reset_index(drop=True)`). -/
def slice_data (timeseries : Table) (start_date end_date : Int) : Table × Table :=
  let mutated := normalizeDates timeseries
  let kept :=
    (mutated.rows.filter (fun r => decide (start_date ≤ r.date.parse))).filter
      (fun r => decide (r.date.parse ≤ end_date))
  (mutated, { cols := mutated.cols, rows := List.insertionSort rowLE kept })

/-- The complete calendar-day sequence `pd.date_range(start_date, end_date)`. -/
def dateRange (s e : Int) : List Int :=
  (List.range (e + 1 - s).toNat).map (fun i => s + Int.ofNat i)

/-- The grid produced by `data.set_index("date").reindex(idx, fill_value=np.nan)`:
for each calendar day of the window, the value cells of the (unique) sliced row
carrying that date, or an all-`NaN` row when the day is absent. -/
def rawGrid (data : Table) (s e : Int) : List (List Cell) :=
  (dateRange s e).map (fun d =>
    match data.rows.find? (fun r => decide (r.date.parse = d)) with
    | some r => r.vals
    | none => data.cols.map (fun _ => none))

/-- Pointwise `orElse` of two rows of cells (first row wins where present). -/
def orRow : List Cell → List Cell → List Cell
  | [], b => b
  | a, [] => a
  | a :: as, b :: bs => (match a with | some v => some v | none => b) :: orRow as bs

/-- Backward fill of a grid (`data.interpolate(method="backfill", axis=0)`):
each missing cell takes the value of the nearest later row that has one. -/
def bfillRows : List (List Cell) → List (List Cell)
  | [] => []
  | r :: rs =>
    let rest := bfillRows rs
    orRow r (rest.headD []) :: rest

/-- Embeds `DataLoader.backfill_ts` (data_loader.py lines 71-105): slice, and in
`"fill"` mode reindex onto the full calendar window and backward-fill.
`reindex` raises `ValueError` on a duplicate date index, modelled as `none`. -/
def backfill_ts (timeseries : Table) (start_date end_date : Int)
    (interpolation : Option String) : Option Table :=
  let data := (slice_data timeseries start_date end_date).2
  if interpolation = some "fill" then
    if (data.rows.map (fun r => r.date.parse)).Nodup then
      some { cols := data.cols,
             rows := List.zipWith (fun d v => { date := DateVal.dt d, vals := v })
               (dateRange start_date end_date)
               (bfillRows (rawGrid data start_date end_date)) }
    else none
  else some data

/-- First-occurrence index of a column name (pandas label lookup). -/
def colIndex (name : String) : List String → Option Nat
  | [] => none
  | c :: cs => if c = name then some 0 else (colIndex name cs).map (· + 1)

/-- Values of the column at position `j` (missing entries of short rows read
as `NaN`; a source `DataFrame` is rectangular, so this never happens there). -/
def colAt (t : Table) (j : Nat) : List Cell := t.rows.map (fun r => r.vals.getD j none)

/-- Column assignment `df[name] = col`: replace the column when the label
exists, else append it on the right (pandas semantics). -/
def setCol (t : Table) (name : String) (col : List Cell) : Table :=
  match colIndex name t.cols with
  | some j =>
    { cols := t.cols,
      rows := List.zipWith (fun r c => { r with vals := r.vals.set j c }) t.rows col }
  | none =>
    { cols := t.cols ++ [name],
      rows := List.zipWith (fun r c => { r with vals := r.vals ++ [c] }) t.rows col }

/-- Column projection `df[["date"] + names]` (the date column is structural):
select the named value columns in order; a missing label is a `KeyError`. -/
def project (t : Table) (names : List String) : Option Table :=
  (names.mapM (fun n => colIndex n t.cols)).map (fun js =>
    { cols := names,
      rows := t.rows.map (fun r => { r with vals := js.map (fun j => r.vals.getD j none) }) })

/-- Positional header assignment `df.columns = "date" :: names'`: pandas raises
`ValueError` unless the list length equals the frame's column count (here one
date column plus the value columns). -/
def setColumns (t : Table) (names : List String) : Option Table :=
  if names.length = t.cols.length + 1 then some { cols := names.tail, rows := t.rows }
  else none

/-- Elementwise division; `NaN` propagates. -/
def cellDiv : Cell → Cell → Cell
  | some a, some b => some (a / b)
  | _, _ => none

/-- Elementwise `x - 1`; `NaN` propagates. -/
def cellSub1 : Cell → Cell
  | some a => some (a - 1)
  | none => none

/-- The shifted column `col.shift()`: first entry `NaN`, rest moved down. -/
def shiftCol (col : List Cell) : List Cell := none :: col.dropLast

/-- One return column: `(col / col.shift()) - 1` elementwise. -/
def retColumn (col : List Cell) : List Cell :=
  List.zipWith (fun a b => cellSub1 (cellDiv a b)) col (shiftCol col)

/-- The loop `for i in fund_codes: subset_data[i + "index"] = (subset_data[i] /
subset_data[i].shift()) - 1` (data_loader.py lines 193-196); a missing fund
column is a `KeyError`. -/
def addIndexCols (t : Table) : List String → Option Table
  | [] => some t
  | c :: cs =>
    match colIndex c t.cols with
    | none => none
    | some j => addIndexCols (setCol t (c ++ "index") (retColumn (colAt t j))) cs

/-- Cells of one row surviving `df.drop(names, axis=1)` (cells are walked in
step with the header list). -/
def dropRowCells (cols : List String) (vals : List Cell) (names : List String) : List Cell :=
  match cols, vals with
  | [], _ => []
  | _, [] => []
  | c :: cs, v :: vs =>
    if c ∈ names then dropRowCells cs vs names else v :: dropRowCells cs vs names

/-- Column drop `df.drop(names, axis=1)`. -/
def dropColsByName (t : Table) (names : List String) : Table :=
  { cols := t.cols.filter (fun c => decide (c ∉ names)),
    rows := t.rows.map (fun r => { r with vals := dropRowCells t.cols r.vals names }) }

/-- Row filter `df.dropna()` (the structural date is never `NaT` here). -/
def dropnaRows (t : Table) : Table :=
  { t with rows := t.rows.filter (fun r => r.vals.all Option.isSome) }

/-- Day of month of a day number (days since 1970-01-01), by the standard
civil-from-days conversion. -/
def civilDayOfMonth (z : Int) : Int :=
  let z2 := z + 719468
  let era : Int := (if 0 ≤ z2 then z2 else z2 - 146096) / 146097
  let doe : Int := z2 - era * 146097
  let yoe : Int := (doe - doe / 1460 + doe / 36524 - doe / 146096) / 365
  let doy : Int := doe - (365 * yoe + yoe / 4 - yoe / 100)
  let mp : Int := (5 * doy + 2) / 153
  doy - (153 * mp + 2) / 5 + 1

/-- The pandas predicate `Series.dt.is_month_end`. -/
def isMonthEnd (z : Int) : Bool := decide (civilDayOfMonth (z + 1) = 1)

/-- The process-wide cache contents. Modelled from the spec: the `ExpiringDict`
class itself is not under src/; per spec section 4.1 `get` returns the stored
table for a key or absent, and population happens solely through `put`.
Expiry and capacity eviction need no model here: no loader in the source ever
calls `put`, so during the loader calls below the contents never change. -/
abbrev Cache := List (String × Table)

/-- Cache lookup `cache.get(key)` (spec section 4.1). -/
def cacheGet (c : Cache) (k : String) : Option Table :=
  (c.find? (fun p => decide (p.1 = k))).map (·.2)

/-- Cache store `cache.put(key, value)` (spec section 4.1); defined because the
spec's read-through contract names it, but no loader below uses it. -/
def cachePut (c : Cache) (k : String) (v : Table) : Cache :=
  (k, v) :: c.filter (fun p => decide (p.1 ≠ k))

/-- The external storage collaborator `read(resource_id) -> Table`
(`pd.read_parquet`); `none` is a propagated not-found/IO error. -/
def Storage := String → Option Table

/-- Resource id `config["fund_codes"]`. -/
def fund_codes_path : String := "01_primary/fund_codes.parquet"

/-- Resource id `config["fund_prices"]`. -/
def fund_prices_path : String := "01_primary/fund_prices.parquet"

/-- Resource id `config["ff_daily"]`. -/
def ff_daily_path : String := "01_primary/ff_daily.parquet"

/-- Resource id `config["ff_monthly"]`. -/
def ff_monthly_path : String := "01_primary/ff_monthly.parquet"

/-- Resource id `config["sp500"]`. -/
def sp500_path : String := "01_primary/sp500.parquet"

/-- The module-level `config` dict; indexing with an unknown key is a
`KeyError`, hence `Option`. -/
def configGet (k : String) : Option String :=
  if k = "fund_codes" then some fund_codes_path
  else if k = "fund_prices" then some fund_prices_path
  else if k = "ff_daily" then some ff_daily_path
  else if k = "ff_monthly" then some ff_monthly_path
  else if k = "sp500" then some sp500_path
  else if k = "bucket_name" then some "aurora-361016-market-data"
  else none

/-- Embeds `DataLoader.load_available_funds` (lines 34-48): cache lookup, on
miss a storage read; the json round trip returns the same records.  The first
component is the cache after the call. -/
def load_available_funds (cache : Cache) (storage : Storage) : Cache × Option Table :=
  (cache,
   match cacheGet cache fund_codes_path with
   | some t => some t
   | none => storage fund_codes_path)

/-- The header rename `{"Date": "date", "close": "market"}` of `load_benchmark`
("Date" names the structural date column; `rename` ignores absent labels). -/
def renameBenchmarkCols (cols : List String) : List String :=
  cols.map (fun c => if c = "close" then "market" else c)

/-- Embeds `DataLoader.load_benchmark` (lines 107-129): cache lookup or storage
read, header rename, date normalization, sort, then fill-mode backfill. -/
def load_benchmark (cache : Cache) (storage : Storage) (start_date end_date : Int) :
    Cache × Option Table :=
  (cache,
   (match cacheGet cache sp500_path with
    | some t => some t
    | none => storage sp500_path).bind (fun b0 =>
      let b1 : Table := { cols := renameBenchmarkCols b0.cols, rows := b0.rows.map normalizeRow }
      let b2 : Table := { b1 with rows := List.insertionSort rowLE b1.rows }
      backfill_ts b2 start_date end_date (some "fill")))

/-- Embeds `DataLoader.load_historical_index` (lines 131-158): the projection
to `["date"] + fund_codes` happens only on the storage-read path (line 150
subscripts the freshly read frame); a cached frame flows through unprojected.
Then fill-mode backfill and the positional header assignment
`data.columns = columns`. -/
def load_historical_index (cache : Cache) (storage : Storage) (fund_codes : List String)
    (start_date end_date : Int) : Cache × Option Table :=
  (cache,
   (match cacheGet cache fund_prices_path with
    | some t => some t
    | none => (storage fund_prices_path).bind (fun raw => project raw fund_codes)).bind
     (fun ts =>
       (backfill_ts ts start_date end_date (some "fill")).bind (fun data =>
         setColumns data ("date" :: fund_codes))))

/-- The optional month-end restriction of `load_historical_returns`
(lines 189-192): applied only when `frequency == "monthly"`. -/
def monthFilter (frequency : String) (t : Table) : Table :=
  if frequency = "monthly" then
    { t with rows := t.rows.filter (fun r => isMonthEnd r.date.parse) }
  else t

/-- The index table `load_historical_returns` derives returns from: the price
panel loaded over `[start_date - 1, end_date]` (one extra day of history,
lines 180-183), then the optional month-end restriction. -/
def returnsBase (cache : Cache) (storage : Storage) (fund_codes : List String)
    (start_date end_date : Int) (frequency : String) : Option Table :=
  ((load_historical_index cache storage fund_codes (start_date - 1) end_date).2).map
    (monthFilter frequency)

/-- Embeds `DataLoader.load_historical_returns` (lines 160-201): shift one day
back, load the index, optionally restrict to month ends, append one return
column per fund code, `dropna()`, drop the level columns, and positionally
rename to `["date"] + fund_codes`. -/
def load_historical_returns (cache : Cache) (storage : Storage) (fund_codes : List String)
    (start_date end_date : Int) (frequency : String) : Cache × Option Table :=
  ((load_historical_index cache storage fund_codes (start_date - 1) end_date).1,
   (returnsBase cache storage fund_codes start_date end_date frequency).bind (fun subset =>
     (addIndexCols subset fund_codes).bind (fun t1 =>
       setColumns (dropColsByName (dropnaRows t1) fund_codes) ("date" :: fund_codes))))

/-- The factor frame `load_ff_factors` starts from: the config lookup
`config["ff_" + frequency]`, the cache lookup, and on miss the storage read
projected to `["date"] + regression_factors + ["RF"]` (lines 222-228). -/
def fetchFactors (cache : Cache) (storage : Storage) (regression_factors : List String)
    (frequency : String) : Option Table :=
  (configGet ("ff_" ++ frequency)).bind (fun path =>
    match cacheGet cache path with
    | some t => some t
    | none => (storage path).bind (fun raw => project raw (regression_factors ++ ["RF"])))

/-- The rescale loop `for k in columns: if k != "date": data[k] = data[k] / 100`
(lines 236-240; `astype(float)` is the identity on numeric cells). -/
def rescaleCols (t : Table) : List String → Option Table
  | [] => some t
  | k :: ks =>
    if k = "date" then rescaleCols t ks
    else
      match colIndex k t.cols with
      | none => none
      | some j => rescaleCols (setCol t k ((colAt t j).map (fun c => cellDiv c (some 100)))) ks

/-- Embeds `DataLoader.load_ff_factors` (lines 203-242): fetch the factor
panel, slice it with no interpolation, divide every non-date column by 100,
and positionally rename the headers. -/
def load_ff_factors (cache : Cache) (storage : Storage) (regression_factors : List String)
    (start_date end_date : Int) (frequency : String) : Cache × Option Table :=
  (cache,
   (fetchFactors cache storage regression_factors frequency).bind (fun factors =>
     (backfill_ts factors start_date end_date none).bind (fun data =>
       (rescaleCols data ("date" :: (regression_factors ++ ["RF"]))).bind (fun data2 =>
         setColumns data2 ("date" :: (regression_factors ++ ["RF"]))))))

/-- Transcribed from the spec (section 4.4): `return[t] = level[t] / level[t-1]
- 1` per series column over consecutive rows of the (possibly month-end
filtered) sequence, keeping only rows where the row and its predecessor are
complete; the output row keeps the later row's date.  Used only to compare the
source pipeline against the spec's formula. -/
def returnsSpec (n : Nat) (rows : List Row) : List Row :=
  (List.zipWith (fun prev cur => (prev, cur)) rows (rows.drop 1)).filterMap (fun pc =>
    if pc.1.vals.all Option.isSome && pc.2.vals.all Option.isSome then
      some { date := pc.2.date,
             vals := (List.range n).map (fun j =>
               cellSub1 (cellDiv (pc.2.vals.getD j none) (pc.1.vals.getD j none))) }
    else none)

/-- Closed form of the column-append loop of `load_historical_returns`, used in
the proofs: each row is extended by the returns against the previous row. -/
def extendPairs (n : Nat) : List Cell → List Row → List Row
  | _, [] => []
  | prev, r :: rs =>
    { r with vals := r.vals ++ (List.range n).map (fun j =>
        cellSub1 (cellDiv (r.vals.getD j none) (prev.getD j none))) } :: extendPairs n r.vals rs

example : dateRange 3 5 = [3, 4, 5] := by decide

/-! ### General list helpers -/

lemma getD_map_lt {α β : Type _} (f : α → β) (l : List α) (i : Nat) (d : β) (da : α)
    (h : i < l.length) : (l.map f).getD i d = f (l.getD i da) := by
  induction l generalizing i with
  | nil => simp at h
  | cons a as ih =>
    cases i with
    | zero => rfl
    | succ n => simpa using ih n (by simpa using h)

lemma getD_map_fix {α : Type _} (f : α → α) (l : List α) (i : Nat) (d : α)
    (hfix : f d = d) : (l.map f).getD i d = f (l.getD i d) := by
  induction l generalizing i with
  | nil => simpa using hfix.symm
  | cons a as ih =>
    cases i with
    | zero => rfl
    | succ n => simpa using ih n

lemma getD_range_lt (n i d : Nat) (h : i < n) : (List.range n).getD i d = i := by
  rw [List.getD_eq_getElem _ _ (by simpa using h)]
  simp

lemma getD_zipWith_lt {α β γ : Type _} (f : α → β → γ) (as : List α) (bs : List β)
    (i : Nat) (d : γ) (da : α) (db : β) (ha : i < as.length) (hb : i < bs.length) :
    (List.zipWith f as bs).getD i d = f (as.getD i da) (bs.getD i db) := by
  induction as generalizing bs i with
  | nil => simp at ha
  | cons a as ih =>
    cases bs with
    | nil => simp at hb
    | cons b bs =>
      cases i with
      | zero => rfl
      | succ n => simpa using ih bs n (by simpa using ha) (by simpa using hb)

lemma zipWith_snd_eq {α β : Type _} (as : List α) (bs : List β)
    (h : bs.length ≤ as.length) : List.zipWith (fun _ b => b) as bs = bs := by
  induction as generalizing bs with
  | nil => cases bs with
    | nil => rfl
    | cons b bs => simp at h
  | cons a as ih =>
    cases bs with
    | nil => rfl
    | cons b bs => simpa using ih bs (by simpa using h)

lemma bfillRows_length (g : List (List Cell)) : (bfillRows g).length = g.length := by
  induction g with
  | nil => rfl
  | cons r rs ih => simpa [bfillRows] using ih

lemma findSome?_cons_or {α β : Type _} (f : α → Option β) (a : α) (l : List α) :
    List.findSome? f (a :: l) = Option.or (f a) (List.findSome? f l) := by
  cases hx : f a <;> simp [List.findSome?_cons, hx, Option.or]

lemma dateRange_length (s e : Int) : (dateRange s e).length = (e + 1 - s).toNat := by
  simp [dateRange]

lemma dateRange_getD (s e : Int) (i : Nat) (h : i < (e + 1 - s).toNat) :
    (dateRange s e).getD i 0 = s + i := by
  unfold dateRange
  rw [getD_map_lt _ (List.range (e + 1 - s).toNat) i 0 0 (by simpa using h)]
  rw [getD_range_lt _ _ _ h]
  rfl

/-! ### C1: the loaders never populate the cache -/

/-- C1.  The claim says each loader, on a cache miss, reads storage and writes
the table back with `put` so that a second identical call hits.  The source
never calls `put`: every loader leaves the cache exactly as it found it, so an
absent entry stays absent after the call (and after any number of calls). -/
theorem cache_never_populated (cache : Cache) (storage : Storage) (s e : Int)
    (codes rf : List String) (freq k : String) :
    (load_available_funds cache storage).1 = cache ∧
    (load_benchmark cache storage s e).1 = cache ∧
    (load_historical_index cache storage codes s e).1 = cache ∧
    (load_ff_factors cache storage rf s e freq).1 = cache ∧
    (load_historical_returns cache storage codes s e freq).1 = cache ∧
    (cacheGet cache k = none → cacheGet (load_benchmark cache storage s e).1 k = none) :=
  ⟨rfl, rfl, rfl, rfl, rfl, fun h => h⟩

/-- Witness for `cache_never_populated`: with an empty cache, the benchmark
entry is absent before a `load_benchmark` call and still absent after it. -/
theorem cache_never_populated_witness :
    cacheGet [] sp500_path = none ∧
    cacheGet (load_benchmark [] (fun _ => none) 0 1).1 sp500_path = none :=
  ⟨rfl, (cache_never_populated [] (fun _ => none) 0 1 [] [] "daily" sp500_path).2.2.2.2.2 rfl⟩

/-! ### C10: unknown frequencies silently mean daily returns -/

/-- C10.  `load_historical_returns` only tests `frequency == "monthly"`; every
other frequency string (including misspellings and the empty string) skips the
month-end restriction and behaves exactly like `"daily"`, with no error. -/
theorem returns_frequency_fallthrough (cache : Cache) (storage : Storage)
    (codes : List String) (s e : Int) (freq : String) (h : freq ≠ "monthly") :
    load_historical_returns cache storage codes s e freq =
      load_historical_returns cache storage codes s e "daily" := by
  have hm : monthFilter freq = monthFilter "daily" := by
    funext t
    simp [monthFilter, h]
  simp [load_historical_returns, returnsBase, hm]

/-- Witness for `returns_frequency_fallthrough` at the empty-string frequency. -/
theorem returns_frequency_fallthrough_witness :
    load_historical_returns [] (fun _ => none) ["A"] 0 1 "" =
      load_historical_returns [] (fun _ => none) ["A"] 0 1 "daily" :=
  returns_frequency_fallthrough [] (fun _ => none) ["A"] 0 1 "" (by decide)

/-! ### C9: cache hits skip the column projection of the price panel -/

/-- C9.  In `load_historical_index` the `[["date"] + fund_codes]` projection is
applied only to the freshly read storage frame; a cached frame flows into the
backfill unprojected, and the closing positional header assignment
`data.columns = columns` succeeds exactly when the frame has `1 + len(codes)`
columns (one date column plus as many value columns as requested codes),
failing instead of returning a table otherwise. -/
theorem index_projection_only_on_storage_path (cache : Cache) (storage : Storage)
    (codes : List String) (s e : Int) :
    (∀ T, cacheGet cache fund_prices_path = some T →
      (load_historical_index cache storage codes s e).2 =
        (backfill_ts T s e (some "fill")).bind (fun d => setColumns d ("date" :: codes))) ∧
    (cacheGet cache fund_prices_path = none →
      (load_historical_index cache storage codes s e).2 =
        ((storage fund_prices_path).bind (fun raw => project raw codes)).bind (fun ts =>
          (backfill_ts ts s e (some "fill")).bind (fun d => setColumns d ("date" :: codes)))) ∧
    (∀ (d : Table) (names : List String),
      (setColumns d ("date" :: names)).isSome ↔ d.cols.length = names.length) := by
  refine ⟨?_, ?_, ?_⟩
  · intro T hT
    simp [load_historical_index, hT]
  · intro hT
    simp [load_historical_index, hT]
  · intro d names
    simp only [setColumns, List.length_cons]
    split
    · simpa using by omega
    · simp only [Option.isSome_none, Bool.false_eq_true, false_iff]
      omega

/-- A two-column table sitting in the cache for the witness below. -/
def tCachedWide : Table := { cols := ["A", "B"], rows := [⟨DateVal.dt 0, [some 1, some 2]⟩] }

/-- Witness for `index_projection_only_on_storage_path`: a cache hit on a
two-column panel flows through without being projected to the single
requested code. -/
theorem index_projection_only_on_storage_path_witness :
    (load_historical_index [(fund_prices_path, tCachedWide)] (fun _ => none) ["A"] 0 1).2 =
      (backfill_ts tCachedWide 0 1 (some "fill")).bind
        (fun d => setColumns d ("date" :: ["A"])) :=
  (index_projection_only_on_storage_path [(fund_prices_path, tCachedWide)]
    (fun _ => none) ["A"] 0 1).1 tCachedWide (by decide)

/-! ### C2: fill-mode backfill yields one row per calendar day -/

/-- C2.  In `"fill"` mode, whenever `backfill_ts` produces a table over a
window with `start <= end`, that table has exactly `end - start + 1` rows and
row `i` carries date `start + i`: one row per calendar day of the window,
ascending, with no gaps. -/
theorem backfill_fill_one_row_per_day (t : Table) (s e : Int) (out : Table)
    (hse : s ≤ e) (h : backfill_ts t s e (some "fill") = some out) :
    out.rows.length = (e + 1 - s).toNat ∧
    ∀ i, i < out.rows.length → (out.rows.getD i dRow).date = DateVal.dt (s + i) := by
  unfold backfill_ts at h
  rw [if_pos rfl] at h
  split at h
  case isTrue hnd =>
    injection h with h
    subst h
    have hglen : (rawGrid (slice_data t s e).2 s e).length = (dateRange s e).length := by
      simp [rawGrid]
    constructor
    · show (List.zipWith (fun d v => ({ date := DateVal.dt d, vals := v } : Row))
        (dateRange s e) (bfillRows (rawGrid (slice_data t s e).2 s e))).length = _
      rw [List.length_zipWith, bfillRows_length, hglen, dateRange_length, Nat.min_self]
    · intro i hi
      have hilt : i < (dateRange s e).length := by
        have := hi
        simp only [List.length_zipWith, bfillRows_length, hglen, Nat.min_self] at this
        exact this
      have hib : i < (bfillRows (rawGrid (slice_data t s e).2 s e)).length := by
        rw [bfillRows_length, hglen]
        exact hilt
      show ((List.zipWith (fun d v => ({ date := DateVal.dt d, vals := v } : Row))
        (dateRange s e) (bfillRows (rawGrid (slice_data t s e).2 s e))).getD i dRow).date = _
      rw [getD_zipWith_lt _ _ _ i dRow 0 [] hilt hib]
      have hrange : i < (e + 1 - s).toNat := by
        rw [dateRange_length] at hilt
        exact hilt
      show DateVal.dt ((dateRange s e).getD i 0) = DateVal.dt (s + i)
      rw [dateRange_getD s e i hrange]
  case isFalse hnd =>
    simp at h

/-- A sparse one-column table used by several witnesses: a level on day 1 and
a level on day 3, nothing on days 2 and 4. -/
def tSparse : Table := { cols := ["x"], rows := [⟨DateVal.dt 1, [some 10]⟩, ⟨DateVal.dt 3, [some 30]⟩] }

/-- The fill-mode backfill of `tSparse` over the window `[1, 4]`. -/
def tSparseFilled : Table :=
  { cols := ["x"],
    rows := [⟨DateVal.dt 1, [some 10]⟩, ⟨DateVal.dt 2, [some 30]⟩,
             ⟨DateVal.dt 3, [some 30]⟩, ⟨DateVal.dt 4, [none]⟩] }

/-- Witness for `backfill_fill_one_row_per_day` over the window `[1, 4]`. -/
theorem backfill_fill_one_row_per_day_witness :
    (1 : Int) ≤ 4 ∧
    backfill_ts tSparse 1 4 (some "fill") = some tSparseFilled ∧
    tSparseFilled.rows.length = ((4 : Int) + 1 - 1).toNat :=
  ⟨by decide, by decide,
   (backfill_fill_one_row_per_day tSparse 1 4 tSparseFilled (by decide) (by decide)).1⟩

/-! ### C3: fill mode backward-fills from the nearest later observation -/

/-- Cell of a grid at row `i`, column `j` (`NaN` when out of range). -/
def gridCell (g : List (List Cell)) (i j : Nat) : Cell := (g.getD i []).getD j none

lemma orRow_getD (a b : List Cell) (j : Nat) :
    (orRow a b).getD j none = Option.or (a.getD j none) (b.getD j none) := by
  induction a generalizing b j with
  | nil => cases b <;> simp [orRow, Option.or]
  | cons x xs ih =>
    cases b with
    | nil => simp [orRow, Option.or_none]
    | cons y ys =>
      cases j with
      | zero => cases x <;> simp [orRow, Option.or]
      | succ n => simpa [orRow] using ih ys n

lemma bfillRows_cell (g : List (List Cell)) (i j : Nat) :
    gridCell (bfillRows g) i j = List.findSome? (fun r => r.getD j none) (g.drop i) := by
  induction g generalizing i with
  | nil => simp [gridCell, bfillRows]
  | cons r rs ih =>
    cases i with
    | zero =>
      show (orRow r ((bfillRows rs).headD [])).getD j none
        = List.findSome? (fun r => r.getD j none) (r :: rs)
      rw [orRow_getD, findSome?_cons_or]
      have hh : ((bfillRows rs).headD []).getD j none
          = List.findSome? (fun r => r.getD j none) rs := by
        have h0 := ih 0
        rw [List.drop_zero] at h0
        rw [← h0]
        cases hrs : bfillRows rs <;> simp [gridCell, hrs]
      rw [hh]
    | succ n =>
      show gridCell (bfillRows rs) n j = _
      rw [ih n, List.drop_succ_cons]

/-- C3.  Every cell of a fill-mode backfill equals the first present cell at
or after its calendar day in the reindexed-but-unfilled grid: a missing value
takes the value of the nearest strictly later day that has one (at a present
cell, the first such is the cell itself), and a trailing missing value with no
later observation stays missing (`findSome?` over an all-`NaN` suffix is
`none`). -/
theorem backfill_fill_backward (t : Table) (s e : Int) (out : Table)
    (h : backfill_ts t s e (some "fill") = some out) :
    ∀ i j, gridCell (out.rows.map Row.vals) i j =
      List.findSome? (fun r => r.getD j none) ((rawGrid (slice_data t s e).2 s e).drop i) := by
  unfold backfill_ts at h
  rw [if_pos rfl] at h
  split at h
  case isTrue hnd =>
    injection h with h
    subst h
    intro i j
    have hmap : (List.zipWith (fun d v => ({ date := DateVal.dt d, vals := v } : Row))
        (dateRange s e) (bfillRows (rawGrid (slice_data t s e).2 s e))).map Row.vals
        = bfillRows (rawGrid (slice_data t s e).2 s e) := by
      rw [List.map_zipWith]
      apply zipWith_snd_eq
      rw [bfillRows_length]
      simp [rawGrid]
    show gridCell ((List.zipWith (fun d v => ({ date := DateVal.dt d, vals := v } : Row))
      (dateRange s e) (bfillRows (rawGrid (slice_data t s e).2 s e))).map Row.vals) i j = _
    rw [hmap]
    exact bfillRows_cell _ i j
  case isFalse hnd =>
    simp at h

/-- Witness for `backfill_fill_backward`: the trailing gap of `tSparse` over
`[1, 4]` (day 4 has no later observation and stays missing, day 2 takes day
3's value). -/
theorem backfill_fill_backward_witness :
    backfill_ts tSparse 1 4 (some "fill") = some tSparseFilled ∧
    List.findSome? (fun r => r.getD 0 none) ((rawGrid (slice_data tSparse 1 4).2 1 4).drop 3)
      = none :=
  ⟨by decide,
   by
    rw [← backfill_fill_backward tSparse 1 4 tSparseFilled (by decide) 3 0]
    decide⟩

/-! ### C7: the slice keeps exactly the in-window rows, sorted -/

/-- C7.  `slice_data` returns exactly the (date-normalized) input rows whose
date lies in `[start_date, end_date]` (both bounds inclusive), sorted
ascending by date; positions re-index from zero by construction, a window with
`start > end` yields an empty table that keeps the column names, and no input
is an error (the function is total). -/
theorem slice_window (t : Table) (s e : Int) :
    List.Perm ((slice_data t s e).2).rows
      (((normalizeDates t).rows.filter (fun r => decide (s ≤ r.date.parse))).filter
        (fun r => decide (r.date.parse ≤ e))) ∧
    List.Sorted rowLE ((slice_data t s e).2).rows ∧
    ((slice_data t s e).2).cols = t.cols ∧
    (e < s → ((slice_data t s e).2).rows = []) := by
  refine ⟨List.perm_insertionSort rowLE _, List.sorted_insertionSort rowLE _, rfl, ?_⟩
  intro hlt
  have hnil : ((normalizeDates t).rows.filter (fun r => decide (s ≤ r.date.parse))).filter
      (fun r => decide (r.date.parse ≤ e)) = [] := by
    rw [List.filter_eq_nil_iff]
    intro r hr
    have h1 := (List.mem_filter.mp hr).2
    simp only [decide_eq_true_eq] at h1 ⊢
    omega
  show List.insertionSort rowLE
    (((normalizeDates t).rows.filter (fun r => decide (s ≤ r.date.parse))).filter
      (fun r => decide (r.date.parse ≤ e))) = []
  rw [hnil]
  rfl

/-- Witness for `slice_window`: the degenerate window `5 > 3` on `tSparse`
yields zero rows while keeping the column header. -/
theorem slice_window_witness :
    (slice_data tSparse 5 3).2.rows = [] ∧ (slice_data tSparse 5 3).2.cols = tSparse.cols :=
  ⟨(slice_window tSparse 5 3).2.2.2 (by decide), (slice_window tSparse 5 3).2.2.1⟩

/-! ### C6: slice_data mutates the caller's date column -/

/-- A table whose date is still raw text: the C6 counterexample input. -/
def tRawCell : Table := { cols := ["x"], rows := [⟨DateVal.raw 5, [some 1]⟩] }

/-- A table whose date column is already normalized: the C6 witness input. -/
def tDtCell : Table := { cols := ["x"], rows := [⟨DateVal.dt 5, [some 1]⟩] }

/-- Counterexample to C6 as stated: `slice_data` writes the normalized date
column back onto the caller's frame (`timeseries["date"] =
pd.to_datetime(timeseries["date"])`, line 65), so a caller whose frame still
holds raw date text observes a changed frame after the call. -/
theorem slice_mutates_caller_cex : (slice_data tRawCell 0 10).1 ≠ tRawCell := by decide

/-- C6 amended.  The call's only effect on the caller's table is normalizing
the date column in place: column names, row count and every value cell are
unchanged, each date is replaced by its parsed (datetime) form, and a table
whose date column is already normalized is left entirely unchanged. -/
theorem slice_mutates_only_dates (t : Table) (s e : Int) :
    (slice_data t s e).1 = normalizeDates t ∧
    ((slice_data t s e).1).cols = t.cols ∧
    ((slice_data t s e).1).rows.length = t.rows.length ∧
    (∀ i, (((slice_data t s e).1).rows.getD i dRow).vals = (t.rows.getD i dRow).vals ∧
      (((slice_data t s e).1).rows.getD i dRow).date
        = DateVal.dt ((t.rows.getD i dRow).date.parse)) ∧
    (normalizeDates t = t → (slice_data t s e).1 = t) := by
  refine ⟨rfl, rfl, ?_, ?_, fun h => h⟩
  · show (t.rows.map normalizeRow).length = t.rows.length
    simp
  · intro i
    have hfix : normalizeRow dRow = dRow := rfl
    constructor
    · show ((t.rows.map normalizeRow).getD i dRow).vals = _
      rw [getD_map_fix normalizeRow t.rows i dRow hfix]
      rfl
    · show ((t.rows.map normalizeRow).getD i dRow).date = _
      rw [getD_map_fix normalizeRow t.rows i dRow hfix]
      rfl

/-- Witness for `slice_mutates_only_dates`: an already-normalized caller frame
is left unchanged. -/
theorem slice_mutates_only_dates_witness : (slice_data tDtCell 0 10).1 = tDtCell :=
  (slice_mutates_only_dates tDtCell 0 10).2.2.2.2 (by decide)

/-! ### C8: factor rescale divides by 100 exactly once -/

/-- Value cell of a row list at row `i`, column position `j`. -/
def rowCell (rows : List Row) (i j : Nat) : Cell := ((rows.getD i dRow).vals).getD j none

lemma getD_oob {α : Type _} (l : List α) (i : Nat) (d : α) (h : l.length ≤ i) :
    l.getD i d = d := by
  induction l generalizing i with
  | nil => simp
  | cons a as ih =>
    cases i with
    | zero => simp at h
    | succ n => simpa using ih n (by simpa using h)

lemma getD_set {α : Type _} (l : List α) (p j : Nat) (c d : α) :
    (l.set p c).getD j d = if j = p ∧ p < l.length then c else l.getD j d := by
  induction l generalizing p j with
  | nil => simp
  | cons a as ih =>
    cases p with
    | zero =>
      cases j with
      | zero => simp
      | succ m => simp
    | succ n =>
      cases j with
      | zero => simp
      | succ m => simpa [Nat.succ_lt_succ_iff] using ih n m

lemma getD_mem_of_lt {α : Type _} (l : List α) (i : Nat) (d : α) (h : i < l.length) :
    l.getD i d ∈ l := by
  rw [List.getD_eq_getElem _ _ h]
  exact List.getElem_mem h

lemma colIndex_append_cons (k : String) (pre post : List String) (hk : k ∉ pre) :
    colIndex k (pre ++ k :: post) = some pre.length := by
  induction pre with
  | nil => simp [colIndex]
  | cons c cs ih =>
    have hck : ¬(c = k) := fun h => hk (by simp [h])
    have hkcs : k ∉ cs := fun h => hk (by simp [h])
    simp [colIndex, hck, ih hkcs]

lemma mem_zipWith_decomp {α β γ : Type _} {f : α → β → γ} {as : List α} {bs : List β}
    {c : γ} (h : c ∈ List.zipWith f as bs) :
    ∃ a b, a ∈ as ∧ b ∈ bs ∧ c = f a b := by
  induction as generalizing bs with
  | nil => simp at h
  | cons a as ih =>
    cases bs with
    | nil => simp at h
    | cons b bs =>
      rcases List.mem_cons.mp h with h | h
      · exact ⟨a, b, by simp, by simp, h⟩
      · obtain ⟨x, y, hx, hy, rfl⟩ := ih h
        exact ⟨x, y, by simp [hx], by simp [hy], rfl⟩

lemma rowCell_oob_of_rect (rows : List Row) (L : Nat)
    (hrect : ∀ r ∈ rows, r.vals.length = L) (i j : Nat) (hj : L ≤ j) :
    rowCell rows i j = none := by
  unfold rowCell
  by_cases hi : i < rows.length
  · have hmem := getD_mem_of_lt rows i dRow hi
    exact getD_oob _ _ _ (by rw [hrect _ hmem]; exact hj)
  · rw [getD_oob rows i dRow (by omega)]
    simp [dRow]

/-- Closed form of the rescale loop: processing the column names `ks`, which
form the tail of the header past a prefix `pre`, divides exactly the cells in
the `ks` columns by 100 and leaves everything else unchanged. -/
lemma rescaleCols_spec : ∀ (ks pre : List String) (t : Table),
    t.cols = pre ++ ks →
    (pre ++ ks).Nodup →
    "date" ∉ ks →
    (∀ r ∈ t.rows, r.vals.length = t.cols.length) →
    ∃ res, rescaleCols t ks = some res ∧
      res.cols = t.cols ∧
      res.rows.length = t.rows.length ∧
      (∀ r ∈ res.rows, r.vals.length = t.cols.length) ∧
      (∀ i, i < t.rows.length → (res.rows.getD i dRow).date = (t.rows.getD i dRow).date) ∧
      (∀ i j, rowCell res.rows i j =
        if pre.length ≤ j then cellDiv (rowCell t.rows i j) (some 100)
        else rowCell t.rows i j) := by
  intro ks
  induction ks with
  | nil =>
    intro pre t hcols hnd hdate hrect
    refine ⟨t, rfl, rfl, rfl, hrect, fun i _ => rfl, ?_⟩
    intro i j
    split
    case isTrue hj =>
      have hoob : rowCell t.rows i j = none := by
        apply rowCell_oob_of_rect t.rows t.cols.length hrect
        rw [hcols]
        simpa using hj
      rw [hoob]
      rfl
    case isFalse hj => rfl
  | cons k ks ih =>
    intro pre t hcols hnd hdate hrect
    have hkdate : ¬(k = "date") := fun h => hdate (by simp [h])
    have hdisj : pre.Disjoint (k :: ks) := (List.nodup_append.mp (hcols ▸ hnd)).2.2
    have hknotpre : k ∉ pre := fun hmem => hdisj hmem (by simp)
    have hidx : colIndex k t.cols = some pre.length := by
      rw [hcols]
      exact colIndex_append_cons k pre ks hknotpre
    set p := pre.length with hp
    set newcol := (colAt t p).map (fun c => cellDiv c (some 100)) with hnewcol
    have hstep : rescaleCols t (k :: ks) = rescaleCols (setCol t k newcol) ks := by
      rw [hnewcol]
      simp [rescaleCols, hkdate, hidx]
    have hsetcols : (setCol t k newcol).cols = t.cols := by
      simp [setCol, hidx]
    have hsetrows : (setCol t k newcol).rows =
        List.zipWith (fun r c => { r with vals := r.vals.set p c }) t.rows newcol := by
      simp [setCol, hidx]
    have hnlen : newcol.length = t.rows.length := by
      simp [hnewcol, colAt]
    have hlen2 : (setCol t k newcol).rows.length = t.rows.length := by
      rw [hsetrows, List.length_zipWith, hnlen, Nat.min_self]
    have hrow : ∀ i, i < t.rows.length →
        ((setCol t k newcol).rows.getD i dRow) =
          { date := (t.rows.getD i dRow).date,
            vals := (t.rows.getD i dRow).vals.set p
              (cellDiv ((t.rows.getD i dRow).vals.getD p none) (some 100)) } := by
      intro i hi
      rw [hsetrows]
      rw [getD_zipWith_lt _ _ _ i dRow dRow none hi (by rw [hnlen]; exact hi)]
      have hcolv : newcol.getD i none =
          cellDiv ((t.rows.getD i dRow).vals.getD p none) (some 100) := by
        rw [hnewcol]
        rw [getD_map_lt _ _ i none none (by simpa [colAt] using hi)]
        unfold colAt
        rw [getD_map_lt _ _ i none dRow hi]
      rw [hcolv]
    have hrect2 : ∀ r ∈ (setCol t k newcol).rows, r.vals.length = t.cols.length := by
      intro r hr
      rw [hsetrows] at hr
      obtain ⟨a, b, ha, hb, rfl⟩ := mem_zipWith_decomp hr
      simpa using hrect a ha
    have hcell2 : ∀ i j, rowCell (setCol t k newcol).rows i j =
        if j = p then cellDiv (rowCell t.rows i j) (some 100) else rowCell t.rows i j := by
      intro i j
      by_cases hi : i < t.rows.length
      · have hL : rowCell (setCol t k newcol).rows i j
            = ((t.rows.getD i dRow).vals.set p
                (cellDiv ((t.rows.getD i dRow).vals.getD p none) (some 100))).getD j none := by
          unfold rowCell
          rw [hrow i hi]
        rw [hL, getD_set]
        unfold rowCell
        by_cases hij : j = p
        · subst hij
          by_cases hplt : p < (t.rows.getD i dRow).vals.length
          · rw [if_pos ⟨rfl, hplt⟩, if_pos rfl]
          · have hoob : (t.rows.getD i dRow).vals.getD p none = none :=
              getD_oob _ _ _ (by omega)
            rw [if_neg (fun hc => hplt hc.2), if_pos rfl, hoob]
            rfl
        · rw [if_neg (fun hc => hij hc.1), if_neg hij]
      · have hlen2i : t.rows.length ≤ i := by omega
        unfold rowCell
        rw [getD_oob (setCol t k newcol).rows i dRow (by rw [hlen2]; exact hlen2i),
          getD_oob t.rows i dRow hlen2i]
        split <;> rfl
    have hcolsassoc : (setCol t k newcol).cols = (pre ++ [k]) ++ ks := by
      rw [hsetcols, hcols]
      simp
    have hndassoc : ((pre ++ [k]) ++ ks).Nodup := by
      have hre : pre ++ k :: ks = (pre ++ [k]) ++ ks := by simp
      rw [← hre]
      exact hnd
    obtain ⟨res, hres, hrescols, hreslen, hresrect, hresdates, hrescells⟩ :=
      ih (pre ++ [k]) (setCol t k newcol) hcolsassoc hndassoc
        (fun h => hdate (by simp [h])) (by rw [hsetcols]; exact hrect2)
    refine ⟨res, by rw [hstep]; exact hres, by rw [hrescols, hsetcols],
      by rw [hreslen, hlen2], by rw [hsetcols] at hresrect; exact hresrect, ?_, ?_⟩
    · intro i hi
      rw [hresdates i (by rw [hlen2]; exact hi), hrow i hi]
    · intro i j
      rw [hrescells i j, hcell2 i j]
      have hlen1 : (pre ++ [k]).length = p + 1 := by simp [hp]
      rw [hlen1]
      by_cases hj1 : j = p
      · subst hj1
        rw [if_neg (by omega), if_pos rfl, if_pos (by omega)]
      · by_cases hj2 : p + 1 ≤ j
        · rw [if_pos hj2, if_neg hj1, if_pos (by omega)]
        · rw [if_neg hj2, if_neg hj1, if_neg (by omega)]

example :
    backfill_ts { cols := ["x"], rows := [⟨DateVal.raw 1, [some 10]⟩, ⟨DateVal.raw 5, [some 50]⟩] }
      1 5 (some "fill")
    = some { cols := ["x"],
             rows := [⟨DateVal.dt 1, [some 10]⟩, ⟨DateVal.dt 2, [some 50]⟩,
                      ⟨DateVal.dt 3, [some 50]⟩, ⟨DateVal.dt 4, [some 50]⟩,
                      ⟨DateVal.dt 5, [some 50]⟩] } := by decide

lemma backfill_none_eq (t : Table) (s e : Int) :
    backfill_ts t s e none = some ((slice_data t s e).2) := by
  simp [backfill_ts]

lemma slice_rect (t : Table) (s e : Int) (L : Nat)
    (h : ∀ r ∈ t.rows, r.vals.length = L) :
    ∀ r ∈ ((slice_data t s e).2).rows, r.vals.length = L := by
  intro r hr
  have h1 : r ∈ ((normalizeDates t).rows.filter (fun r => decide (s ≤ r.date.parse))).filter
      (fun r => decide (r.date.parse ≤ e)) := (List.perm_insertionSort rowLE _).mem_iff.mp hr
  have h2 := (List.mem_filter.mp h1).1
  have h3 := (List.mem_filter.mp h2).1
  obtain ⟨r0, hr0, rfl⟩ := List.mem_map.mp h3
  simpa [normalizeRow] using h r0 hr0

/-- The raw factor cell `50` (percent units) that the rescale must turn into
`0.50`. -/
def fFifty : Table := { cols := ["F"], rows := [⟨DateVal.dt 0, [some 50]⟩] }

/-- `fFifty` after one pass of the rescale loop. -/
def fFiftyOnce : Table := { cols := ["F"], rows := [⟨DateVal.dt 0, [some ((50 : ℚ) / 100)]⟩] }

/-- `fFifty` after two passes of the rescale loop. -/
def fFiftyTwice : Table :=
  { cols := ["F"], rows := [⟨DateVal.dt 0, [some ((50 : ℚ) / 100 / 100)]⟩] }

/-- C8.  `load_ff_factors` divides every non-date cell of the sliced factor
table by 100 exactly once (each output cell is the corresponding sliced cell
divided by 100), applies no gap filling (row count and dates are exactly those
of the slice), and a raw `50` becomes `1/2`; running the rescale loop a second
time divides by 100 again, so the normalization is not idempotent. -/
theorem ff_rescale_divides_once_not_idempotent :
    (∀ (cache : Cache) (storage : Storage) (rf : List String) (s e : Int) (freq : String)
      (F out : Table),
      fetchFactors cache storage rf freq = some F →
      F.cols = rf ++ ["RF"] →
      (rf ++ ["RF"]).Nodup →
      "date" ∉ rf →
      (∀ r ∈ F.rows, r.vals.length = F.cols.length) →
      (load_ff_factors cache storage rf s e freq).2 = some out →
      out.cols = rf ++ ["RF"] ∧
      out.rows.length = ((slice_data F s e).2).rows.length ∧
      (∀ i, i < out.rows.length →
        (out.rows.getD i dRow).date = (((slice_data F s e).2).rows.getD i dRow).date) ∧
      (∀ i j, rowCell out.rows i j
        = cellDiv (rowCell ((slice_data F s e).2).rows i j) (some 100))) ∧
    rescaleCols fFifty ["date", "F"] = some fFiftyOnce ∧
    (rescaleCols fFifty ["date", "F"]).bind (fun u => rescaleCols u ["date", "F"])
      = some fFiftyTwice ∧
    rowCell fFiftyOnce.rows 0 0 = some (1 / 2) ∧
    fFiftyTwice ≠ fFiftyOnce := by
  refine ⟨?_, rfl, rfl, ?_, ?_⟩
  · intro cache storage rf s e freq F out hF hcols hnd hdate hrect hout
    have hdn : "date" ∉ rf ++ ["RF"] := by
      intro hmem
      rcases List.mem_append.mp hmem with h | h
      · exact hdate h
      · simp at h
    have hsliced_cols : ((slice_data F s e).2).cols = rf ++ ["RF"] := hcols
    obtain ⟨res, hres, hrescols, hreslen, hresrect, hresdates, hrescells⟩ :=
      rescaleCols_spec (rf ++ ["RF"]) [] ((slice_data F s e).2)
        (by simpa using hsliced_cols) (by simpa using hnd) hdn
        (fun r hr => slice_rect F s e F.cols.length hrect r hr)
    have hskip : rescaleCols ((slice_data F s e).2) ("date" :: (rf ++ ["RF"]))
        = rescaleCols ((slice_data F s e).2) (rf ++ ["RF"]) := by
      simp [rescaleCols]
    have hload : (load_ff_factors cache storage rf s e freq).2
        = setColumns res ("date" :: (rf ++ ["RF"])) := by
      simp [load_ff_factors, hF, backfill_none_eq, hskip, hres]
    rw [hload] at hout
    have hsc : setColumns res ("date" :: (rf ++ ["RF"]))
        = some { cols := rf ++ ["RF"], rows := res.rows } := by
      unfold setColumns
      rw [if_pos (by rw [hrescols, hsliced_cols]; simp)]
      rfl
    rw [hsc] at hout
    injection hout with hout
    subst hout
    refine ⟨rfl, hreslen, ?_, ?_⟩
    · intro i hi
      exact hresdates i (hreslen ▸ hi)
    · intro i j
      simpa using hrescells i j
  · show some ((50 : ℚ) / 100) = some (1 / 2)
    norm_num
  · intro hcontra
    have hq : ((50 : ℚ) / 100 / 100) = 50 / 100 := by
      have hc := congrArg (fun u => rowCell u.rows 0 0) hcontra
      simpa [fFiftyTwice, fFiftyOnce, rowCell, dRow] using hc
    norm_num at hq

/-- A two-column factor panel sitting in the cache for the C8 witness. -/
def fPanelW : Table := { cols := ["F", "RF"], rows := [⟨DateVal.dt 0, [some 50, some 3]⟩] }

/-- The factor panel `fPanelW` after `load_ff_factors` over `[0, 0]`. -/
def fPanelWOut : Table :=
  { cols := ["F", "RF"],
    rows := [⟨DateVal.dt 0, [some ((50 : ℚ) / 100), some ((3 : ℚ) / 100)]⟩] }

/-- Witness for `ff_rescale_divides_once_not_idempotent` on a concrete cached
factor panel. -/
theorem ff_rescale_divides_once_not_idempotent_witness :
    (load_ff_factors [(ff_daily_path, fPanelW)] (fun _ => none) ["F"] 0 0 "daily").2
      = some fPanelWOut ∧
    fPanelWOut.cols = ["F"] ++ ["RF"] :=
  ⟨rfl,
   (ff_rescale_divides_once_not_idempotent.1 [(ff_daily_path, fPanelW)] (fun _ => none)
     ["F"] 0 0 "daily" fPanelW fPanelWOut (by decide) (by decide) (by decide) (by decide)
     (by decide) rfl).1⟩

/-! ### C4 and C5: the return pipeline -/

lemma string_append_index_inj : Function.Injective (fun c : String => c ++ "index") := by
  intro a b h
  have hd := congrArg String.data h
  simp only [String.data_append] at hd
  exact String.ext (List.append_cancel_right hd)

lemma ext_getD {α : Type _} (l1 l2 : List α) (d : α) (hlen : l1.length = l2.length)
    (h : ∀ i, i < l1.length → l1.getD i d = l2.getD i d) : l1 = l2 := by
  apply List.ext_getElem hlen
  intro i h1 h2
  have hi := h i h1
  rwa [List.getD_eq_getElem _ _ h1, List.getD_eq_getElem _ _ h2] at hi

lemma colIndex_eq_none_iff (name : String) (l : List String) :
    colIndex name l = none ↔ name ∉ l := by
  induction l with
  | nil => simp [colIndex]
  | cons c cs ih =>
    by_cases hc : c = name
    · subst hc
      simp [colIndex]
    · have hstep : colIndex name (c :: cs) = (colIndex name cs).map (· + 1) := by
        show (if c = name then some 0 else (colIndex name cs).map (· + 1)) = _
        rw [if_neg hc]
      have hmap : (colIndex name cs).map (· + 1) = none ↔ colIndex name cs = none := by
        cases colIndex name cs <;> simp
      have hnc : ¬(name = c) := fun h => hc h.symm
      rw [hstep, hmap, ih]
      simp [hnc]

lemma colIndex_isSome_of_mem {name : String} {l : List String} (h : name ∈ l) :
    ∃ j, colIndex name l = some j := by
  cases hc : colIndex name l with
  | some j => exact ⟨j, rfl⟩
  | none => exact absurd ((colIndex_eq_none_iff name l).mp hc) (by simp [h])

lemma colIndex_lt_length {name : String} {l : List String} {j : Nat}
    (h : colIndex name l = some j) : j < l.length := by
  induction l generalizing j with
  | nil => simp [colIndex] at h
  | cons c cs ih =>
    by_cases hc : c = name
    · rw [show colIndex name (c :: cs) = some 0 from by
        show (if c = name then some 0 else _) = _
        rw [if_pos hc]] at h
      injection h with h
      subst h
      simp
    · rw [show colIndex name (c :: cs) = (colIndex name cs).map (· + 1) from by
        show (if c = name then some 0 else _) = _
        rw [if_neg hc]] at h
      cases hcs : colIndex name cs with
      | none => rw [hcs] at h; simp at h
      | some j0 =>
        rw [hcs] at h
        simp at h
        subst h
        simpa using Nat.succ_lt_succ (ih hcs)

lemma colIndex_append_of_mem (name : String) (l1 l2 : List String) (h : name ∈ l1) :
    colIndex name (l1 ++ l2) = colIndex name l1 := by
  induction l1 with
  | nil => simp at h
  | cons c cs ih =>
    by_cases hc : c = name
    · simp [colIndex, hc]
    · have hcs : name ∈ cs := by
        rcases List.mem_cons.mp h with h1 | h1
        · exact absurd h1.symm hc
        · exact h1
      simp [colIndex, hc, ih hcs]

lemma colIndex_getD_self {cs : List String} (hnd : cs.Nodup) (j : Nat) (hj : j < cs.length) :
    colIndex (cs.getD j "") cs = some j := by
  induction cs generalizing j with
  | nil => simp at hj
  | cons c cs ih =>
    cases j with
    | zero => simp [colIndex]
    | succ m =>
      have hm : m < cs.length := by simpa using hj
      have hne : ¬(c = cs.getD m "") := by
        intro hc
        have hmem : cs.getD m "" ∈ cs := getD_mem_of_lt cs m "" hm
        rw [← hc] at hmem
        exact (List.nodup_cons.mp hnd).1 hmem
      have hgd : (c :: cs).getD (m + 1) "" = cs.getD m "" := rfl
      have hcol : colIndex (cs.getD m "") (c :: cs)
          = if c = cs.getD m "" then some 0
            else (colIndex (cs.getD m "") cs).map (· + 1) := rfl
      rw [hgd, hcol, if_neg hne, ih (List.nodup_cons.mp hnd).2 m hm]
      rfl

lemma getD_append_left {α : Type _} (l1 l2 : List α) (j : Nat) (d : α) (h : j < l1.length) :
    (l1 ++ l2).getD j d = l1.getD j d := by
  induction l1 generalizing j with
  | nil => simp at h
  | cons a as ih =>
    cases j with
    | zero => rfl
    | succ m => simpa using ih m (by simpa using h)

lemma getD_dropLast {α : Type _} (l : List α) (m : Nat) (d : α) (h : m < l.length - 1) :
    l.dropLast.getD m d = l.getD m d := by
  induction l generalizing m with
  | nil => simp at h
  | cons a as ih =>
    cases as with
    | nil => simp at h
    | cons b bs =>
      cases m with
      | zero => rfl
      | succ k =>
        have hk : k < (b :: bs).length - 1 := by simpa using h
        show (b :: bs).dropLast.getD k d = (b :: bs).getD k d
        exact ih k hk

lemma retColumn_length (col : List Cell) : (retColumn col).length = col.length := by
  cases col with
  | nil => rfl
  | cons a as => simp [retColumn, shiftCol, List.length_zipWith]

lemma retColumn_getD (col : List Cell) (i : Nat) (hi : i < col.length) :
    (retColumn col).getD i none
      = cellSub1 (cellDiv (col.getD i none)
          (if i = 0 then none else col.getD (i - 1) none)) := by
  have hb : i < (shiftCol col).length := by
    simp only [shiftCol, List.length_cons, List.length_dropLast]
    omega
  unfold retColumn
  rw [getD_zipWith_lt _ _ _ i none none none hi hb]
  have hx : (shiftCol col).getD i none
      = (if i = 0 then none else col.getD (i - 1) none) := by
    cases i with
    | zero => rfl
    | succ m =>
      have h1 : (shiftCol col).getD (m + 1) none = col.dropLast.getD m none := rfl
      rw [h1, getD_dropLast col m none (by omega)]
      simp
  rw [hx]

lemma extendPairs_length (n : Nat) (prev : List Cell) (rows : List Row) :
    (extendPairs n prev rows).length = rows.length := by
  induction rows generalizing prev with
  | nil => rfl
  | cons r rs ih => simpa [extendPairs] using ih r.vals

lemma extendPairs_getD (n : Nat) (prev : List Cell) (rows : List Row) (i : Nat)
    (hi : i < rows.length) :
    (extendPairs n prev rows).getD i dRow =
      { date := (rows.getD i dRow).date,
        vals := (rows.getD i dRow).vals ++ (List.range n).map (fun j =>
          cellSub1 (cellDiv ((rows.getD i dRow).vals.getD j none)
            ((if i = 0 then prev else (rows.getD (i - 1) dRow).vals).getD j none))) } := by
  induction rows generalizing prev i with
  | nil => simp at hi
  | cons r rs ih =>
    cases i with
    | zero => rfl
    | succ m =>
      have hm : m < rs.length := by simpa using hi
      show (extendPairs n r.vals rs).getD m dRow = _
      rw [ih r.vals m hm]
      cases m with
      | zero => rfl
      | succ k => rfl

lemma map_eq_range_map {α β : Type _} (l : List α) (f : α → β) (da : α) :
    l.map f = (List.range l.length).map (fun j => f (l.getD j da)) := by
  apply List.ext_getElem (by simp)
  intro i h1 h2
  simp only [List.getElem_map, List.getElem_range]
  rw [List.getD_eq_getElem _ _ (by simpa using h1)]

lemma dropRowCells_all_mem (cols : List String) (vals : List Cell) (names : List String)
    (h : ∀ c ∈ cols, c ∈ names) : dropRowCells cols vals names = [] := by
  induction cols generalizing vals with
  | nil => cases vals <;> rfl
  | cons c cs ih =>
    cases vals with
    | nil => rfl
    | cons v vs =>
      show dropRowCells (c :: cs) (v :: vs) names = []
      unfold dropRowCells
      rw [if_pos (h c (by simp))]
      exact ih vs (fun x hx => h x (by simp [hx]))

lemma dropRowCells_none_mem (cols : List String) (vals : List Cell) (names : List String)
    (hlen : vals.length = cols.length) (h : ∀ c ∈ cols, c ∉ names) :
    dropRowCells cols vals names = vals := by
  induction cols generalizing vals with
  | nil =>
    cases vals with
    | nil => rfl
    | cons v vs => simp at hlen
  | cons c cs ih =>
    cases vals with
    | nil => simp at hlen
    | cons v vs =>
      show dropRowCells (c :: cs) (v :: vs) names = v :: vs
      unfold dropRowCells
      rw [if_neg (h c (by simp))]
      rw [ih vs (by simpa using hlen) (fun x hx => h x (by simp [hx]))]

lemma dropRowCells_append (cols1 : List String) (vals1 : List Cell)
    (cols2 : List String) (vals2 : List Cell) (names : List String)
    (hlen : vals1.length = cols1.length) :
    dropRowCells (cols1 ++ cols2) (vals1 ++ vals2) names
      = dropRowCells cols1 vals1 names ++ dropRowCells cols2 vals2 names := by
  have hcons : ∀ (c : String) (cs : List String) (v : Cell) (vs : List Cell),
      dropRowCells (c :: cs) (v :: vs) names
        = if c ∈ names then dropRowCells cs vs names
          else v :: dropRowCells cs vs names := fun _ _ _ _ => rfl
  induction cols1 generalizing vals1 with
  | nil =>
    cases vals1 with
    | nil => rfl
    | cons v vs => simp at hlen
  | cons c cs ih =>
    cases vals1 with
    | nil => simp at hlen
    | cons v vs =>
      show dropRowCells (c :: (cs ++ cols2)) (v :: (vs ++ vals2)) names
        = dropRowCells (c :: cs) (v :: vs) names ++ dropRowCells cols2 vals2 names
      rw [hcons c (cs ++ cols2) v (vs ++ vals2), hcons c cs v vs]
      by_cases hc : c ∈ names
      · rw [if_pos hc, if_pos hc, ih vs (by simpa using hlen)]
      · rw [if_neg hc, if_neg hc, ih vs (by simpa using hlen)]
        rfl

/-- Closed form of the column-append loop: under fresh, distinct appended
names and a rectangular frame, the loop appends, for each code in order, the
return column of that code's (original) level column. -/
lemma addIndexCols_spec (cs : List String) : ∀ (t : Table),
    (∀ c ∈ cs, c ∈ t.cols) →
    (∀ c ∈ cs, (c ++ "index") ∉ t.cols) →
    (cs.map (fun c => c ++ "index")).Nodup →
    (∀ r ∈ t.rows, r.vals.length = t.cols.length) →
    ∃ res, addIndexCols t cs = some res ∧
      res.cols = t.cols ++ cs.map (fun c => c ++ "index") ∧
      res.rows.length = t.rows.length ∧
      ∀ i, i < t.rows.length →
        (res.rows.getD i dRow).date = (t.rows.getD i dRow).date ∧
        (res.rows.getD i dRow).vals
          = (t.rows.getD i dRow).vals
            ++ cs.map (fun c =>
                (retColumn (colAt t ((colIndex c t.cols).getD 0))).getD i none) := by
  induction cs with
  | nil =>
    intro t hin hfresh hndm hrect
    exact ⟨t, rfl, by simp, rfl, fun i hi => ⟨rfl, by simp⟩⟩
  | cons c cs ih =>
    intro t hin hfresh hndm hrect
    obtain ⟨j, hj⟩ := colIndex_isSome_of_mem (hin c (by simp))
    have hjlt := colIndex_lt_length hj
    have hstep : addIndexCols t (c :: cs)
        = addIndexCols (setCol t (c ++ "index") (retColumn (colAt t j))) cs := by
      show (match colIndex c t.cols with
        | none => none
        | some j => addIndexCols (setCol t (c ++ "index") (retColumn (colAt t j))) cs) = _
      rw [hj]
    have hnone : colIndex (c ++ "index") t.cols = none :=
      (colIndex_eq_none_iff _ _).mpr (hfresh c (by simp))
    have ht'cols : (setCol t (c ++ "index") (retColumn (colAt t j))).cols
        = t.cols ++ [c ++ "index"] := by
      simp [setCol, hnone]
    have ht'rows : (setCol t (c ++ "index") (retColumn (colAt t j))).rows
        = List.zipWith (fun r x => { r with vals := r.vals ++ [x] }) t.rows
            (retColumn (colAt t j)) := by
      simp [setCol, hnone]
    have hcollen : (retColumn (colAt t j)).length = t.rows.length := by
      rw [retColumn_length]
      simp [colAt]
    have ht'len : (setCol t (c ++ "index") (retColumn (colAt t j))).rows.length
        = t.rows.length := by
      rw [ht'rows, List.length_zipWith, hcollen, Nat.min_self]
    have ht'row : ∀ i, i < t.rows.length →
        (setCol t (c ++ "index") (retColumn (colAt t j))).rows.getD i dRow
          = { date := (t.rows.getD i dRow).date,
              vals := (t.rows.getD i dRow).vals ++ [(retColumn (colAt t j)).getD i none] } := by
      intro i hi
      rw [ht'rows, getD_zipWith_lt _ _ _ i dRow dRow none hi (by rw [hcollen]; exact hi)]
    have ht'rect : ∀ r ∈ (setCol t (c ++ "index") (retColumn (colAt t j))).rows,
        r.vals.length = (setCol t (c ++ "index") (retColumn (colAt t j))).cols.length := by
      intro r hr
      rw [ht'rows] at hr
      obtain ⟨a, b, ha, hb, rfl⟩ := mem_zipWith_decomp hr
      rw [ht'cols]
      simp [hrect a ha]
    rw [List.map_cons] at hndm
    have hin' : ∀ c' ∈ cs, c' ∈ (setCol t (c ++ "index") (retColumn (colAt t j))).cols := by
      intro c' hc'
      rw [ht'cols]
      exact List.mem_append.mpr (Or.inl (hin c' (by simp [hc'])))
    have hfresh' : ∀ c' ∈ cs,
        (c' ++ "index") ∉ (setCol t (c ++ "index") (retColumn (colAt t j))).cols := by
      intro c' hc' hmem
      rw [ht'cols] at hmem
      rcases List.mem_append.mp hmem with h | h
      · exact hfresh c' (by simp [hc']) h
      · simp at h
        exact (List.nodup_cons.mp hndm).1 (h ▸ List.mem_map_of_mem _ hc')
    obtain ⟨res, hres, hrescols, hreslen, hresrows⟩ :=
      ih (setCol t (c ++ "index") (retColumn (colAt t j))) hin' hfresh'
        (List.nodup_cons.mp hndm).2 ht'rect
    refine ⟨res, by rw [hstep]; exact hres, ?_, by rw [hreslen, ht'len], ?_⟩
    · rw [hrescols, ht'cols, List.map_cons]
      simp
    · intro i hi
      have hi' : i < (setCol t (c ++ "index") (retColumn (colAt t j))).rows.length := by
        rw [ht'len]
        exact hi
      obtain ⟨hdate', hvals'⟩ := hresrows i hi'
      constructor
      · rw [hdate', ht'row i hi]
      · rw [hvals', ht'row i hi, List.map_cons]
        have hhead : (colIndex c t.cols).getD 0 = j := by rw [hj]; rfl
        have hmapeq : cs.map (fun c' =>
            (retColumn (colAt (setCol t (c ++ "index") (retColumn (colAt t j)))
              ((colIndex c' (setCol t (c ++ "index") (retColumn (colAt t j))).cols).getD 0))).getD i none)
            = cs.map (fun c' =>
                (retColumn (colAt t ((colIndex c' t.cols).getD 0))).getD i none) := by
          apply List.map_congr_left
          intro c' hc'
          have hci : colIndex c' (setCol t (c ++ "index") (retColumn (colAt t j))).cols
              = colIndex c' t.cols := by
            rw [ht'cols]
            exact colIndex_append_of_mem c' t.cols _ (hin c' (by simp [hc']))
          rw [hci]
          obtain ⟨j', hj'⟩ := colIndex_isSome_of_mem (hin c' (by simp [hc']))
          rw [hj']
          have hj'lt := colIndex_lt_length hj'
          have hcolAtLen : (colAt (setCol t (c ++ "index") (retColumn (colAt t j))) j').length
              = t.rows.length := by
            show ((setCol t (c ++ "index") (retColumn (colAt t j))).rows.map
              (fun r => r.vals.getD j' none)).length = t.rows.length
            rw [List.length_map, ht'len]
          have hcolAtLen2 : (colAt t j').length = t.rows.length := by
            show (t.rows.map (fun r => r.vals.getD j' none)).length = t.rows.length
            rw [List.length_map]
          have hcolAt : colAt (setCol t (c ++ "index") (retColumn (colAt t j))) j'
              = colAt t j' := by
            apply ext_getD _ _ none (by rw [hcolAtLen, hcolAtLen2])
            intro i2 hi2
            have hi2t : i2 < t.rows.length := by rw [← hcolAtLen]; exact hi2
            have hi2' : i2 < (setCol t (c ++ "index") (retColumn (colAt t j))).rows.length := by
              rw [ht'len]
              exact hi2t
            show ((setCol t (c ++ "index") (retColumn (colAt t j))).rows.map
                (fun r => r.vals.getD j' none)).getD i2 none
              = (t.rows.map (fun r => r.vals.getD j' none)).getD i2 none
            rw [getD_map_lt _ _ i2 none dRow hi2', getD_map_lt _ _ i2 none dRow hi2t]
            rw [ht'row i2 hi2t]
            show ((t.rows.getD i2 dRow).vals ++ [_]).getD j' none
              = (t.rows.getD i2 dRow).vals.getD j' none
            apply getD_append_left
            rw [hrect (t.rows.getD i2 dRow) (getD_mem_of_lt _ _ _ hi2t)]
            exact hj'lt
          show (retColumn (colAt (setCol t (c ++ "index") (retColumn (colAt t j))) j')).getD i none
            = (retColumn (colAt t j')).getD i none
          rw [hcolAt]
        rw [hmapeq, List.append_assoc, hhead]
        rfl

lemma cell_ret_isSome (a b : Cell) :
    (cellSub1 (cellDiv a b)).isSome = (a.isSome && b.isSome) := by
  cases a <;> cases b <;> rfl

lemma all_isSome_iff_getD (l : List Cell) :
    l.all Option.isSome = true ↔ ∀ j, j < l.length → (l.getD j none).isSome = true := by
  rw [List.all_eq_true]
  constructor
  · intro h j hj
    exact h _ (getD_mem_of_lt l j none hj)
  · intro h x hx
    obtain ⟨j, hjl, rfl⟩ := List.mem_iff_getElem.mp hx
    have hg := h j hjl
    rwa [List.getD_eq_getElem _ _ hjl] at hg

lemma ret_row_complete_iff (rvals prev : List Cell) (n : Nat)
    (hr : rvals.length = n) (hp : prev.length = n) :
    ((rvals ++ (List.range n).map (fun j =>
        cellSub1 (cellDiv (rvals.getD j none) (prev.getD j none)))).all Option.isSome = true)
      ↔ (rvals.all Option.isSome = true ∧ prev.all Option.isSome = true) := by
  rw [List.all_append, Bool.and_eq_true]
  constructor
  · rintro ⟨h1, h2⟩
    refine ⟨h1, ?_⟩
    rw [all_isSome_iff_getD]
    intro j hj
    rw [hp] at hj
    have hmem : (cellSub1 (cellDiv (rvals.getD j none) (prev.getD j none)))
        ∈ (List.range n).map (fun j =>
            cellSub1 (cellDiv (rvals.getD j none) (prev.getD j none))) :=
      List.mem_map_of_mem _ (List.mem_range.mpr hj)
    have hall := List.all_eq_true.mp h2 _ hmem
    rw [cell_ret_isSome, Bool.and_eq_true] at hall
    exact hall.2
  · rintro ⟨h1, h2⟩
    refine ⟨h1, ?_⟩
    rw [List.all_eq_true]
    intro x hx
    obtain ⟨j, hjmem, rfl⟩ := List.mem_map.mp hx
    have hj := List.mem_range.mp hjmem
    rw [cell_ret_isSome, Bool.and_eq_true]
    exact ⟨(all_isSome_iff_getD rvals).mp h1 j (by omega),
      (all_isSome_iff_getD prev).mp h2 j (by omega)⟩

lemma pipeline_rows_eq (cs : List String) (hfresh : ∀ c ∈ cs, (c ++ "index") ∉ cs) :
    ∀ (rows : List Row) (prevRow : Row),
    prevRow.vals.length = cs.length →
    (∀ r ∈ rows, r.vals.length = cs.length) →
    ((extendPairs cs.length prevRow.vals rows).filter (fun r => r.vals.all Option.isSome)).map
        (fun r => ({ date := r.date,
                     vals := dropRowCells (cs ++ cs.map (fun c => c ++ "index")) r.vals cs } : Row))
      = (List.zipWith (fun a b => (a, b)) (prevRow :: rows) rows).filterMap (fun pc =>
          if pc.1.vals.all Option.isSome && pc.2.vals.all Option.isSome then
            some ({ date := pc.2.date,
                    vals := (List.range cs.length).map (fun j =>
                      cellSub1 (cellDiv (pc.2.vals.getD j none) (pc.1.vals.getD j none))) } : Row)
          else none) := by
  intro rows
  induction rows with
  | nil =>
    intro prevRow hp hr
    rfl
  | cons r rs ih =>
    intro prevRow hp hr
    have hrn : r.vals.length = cs.length := hr r (by simp)
    have hext : extendPairs cs.length prevRow.vals (r :: rs)
        = { r with vals := r.vals ++ (List.range cs.length).map (fun j =>
            cellSub1 (cellDiv (r.vals.getD j none) (prevRow.vals.getD j none))) }
          :: extendPairs cs.length r.vals rs := rfl
    have hzip : List.zipWith (fun a b => (a, b)) (prevRow :: r :: rs) (r :: rs)
        = (prevRow, r) :: List.zipWith (fun a b => (a, b)) (r :: rs) rs := rfl
    rw [hext, hzip]
    set pf := (fun pc : Row × Row =>
        if pc.1.vals.all Option.isSome && pc.2.vals.all Option.isSome then
          some ({ date := pc.2.date,
                  vals := (List.range cs.length).map (fun j =>
                    cellSub1 (cellDiv (pc.2.vals.getD j none) (pc.1.vals.getD j none))) } : Row)
        else none) with hpf
    by_cases hcond : (r.vals ++ (List.range cs.length).map (fun j =>
        cellSub1 (cellDiv (r.vals.getD j none)
          (prevRow.vals.getD j none)))).all Option.isSome = true
    · have hpc : (prevRow.vals.all Option.isSome && r.vals.all Option.isSome) = true := by
        have hh := (ret_row_complete_iff r.vals prevRow.vals cs.length hrn hp).mp hcond
        rw [Bool.and_eq_true]
        exact ⟨hh.2, hh.1⟩
      have hfa : pf (prevRow, r)
          = some ({ date := r.date,
                    vals := (List.range cs.length).map (fun j =>
                      cellSub1 (cellDiv (r.vals.getD j none)
                        (prevRow.vals.getD j none))) } : Row) := by
        rw [hpf]
        show (if prevRow.vals.all Option.isSome && r.vals.all Option.isSome
            then some ({ date := r.date,
                         vals := (List.range cs.length).map (fun j =>
                           cellSub1 (cellDiv (r.vals.getD j none)
                             (prevRow.vals.getD j none))) } : Row)
            else none) = _
        rw [if_pos hpc]
      rw [List.filter_cons_of_pos (by exact hcond)]
      rw [List.filterMap_cons_some hfa]
      rw [List.map_cons]
      congr 1
      · have hd : dropRowCells (cs ++ cs.map (fun c => c ++ "index"))
            (r.vals ++ (List.range cs.length).map (fun j =>
              cellSub1 (cellDiv (r.vals.getD j none) (prevRow.vals.getD j none)))) cs
            = (List.range cs.length).map (fun j =>
                cellSub1 (cellDiv (r.vals.getD j none) (prevRow.vals.getD j none))) := by
          rw [dropRowCells_append cs r.vals _ _ cs (by rw [hrn])]
          rw [dropRowCells_all_mem cs r.vals cs (fun c h => h)]
          rw [dropRowCells_none_mem (cs.map (fun c => c ++ "index")) _ cs
            (by simp) (by
              intro x hx
              obtain ⟨c0, hc0, rfl⟩ := List.mem_map.mp hx
              exact hfresh c0 hc0)]
          rfl
        show ({ date := r.date, vals := dropRowCells _ _ _ } : Row) = _
        rw [hd]
      · exact ih r hrn (fun r' hr' => hr r' (by simp [hr']))
    · have hfn : pf (prevRow, r) = none := by
        rw [hpf]
        show (if prevRow.vals.all Option.isSome && r.vals.all Option.isSome
            then some ({ date := r.date,
                         vals := (List.range cs.length).map (fun j =>
                           cellSub1 (cellDiv (r.vals.getD j none)
                             (prevRow.vals.getD j none))) } : Row)
            else none) = none
        rw [if_neg (by
          intro hpc
          rw [Bool.and_eq_true] at hpc
          exact hcond ((ret_row_complete_iff r.vals prevRow.vals cs.length hrn hp).mpr
            ⟨hpc.2, hpc.1⟩))]
      rw [List.filter_cons_of_neg (by exact hcond)]
      rw [List.filterMap_cons_none hfn]
      exact ih r hrn (fun r' hr' => hr r' (by simp [hr']))

lemma addIndexCols_extendPairs (cs : List String) (t : Table)
    (hcols : t.cols = cs) (hnd : cs.Nodup)
    (hfresh : ∀ c ∈ cs, (c ++ "index") ∉ cs)
    (hrect : ∀ r ∈ t.rows, r.vals.length = cs.length) :
    addIndexCols t cs
      = some { cols := cs ++ cs.map (fun c => c ++ "index"),
               rows := extendPairs cs.length [] t.rows } := by
  have hndm : (cs.map (fun c => c ++ "index")).Nodup := hnd.map string_append_index_inj
  obtain ⟨res, hres, hrescols, hreslen, hresrows⟩ :=
    addIndexCols_spec cs t (by rw [hcols]; exact fun c h => h)
      (by rw [hcols]; exact hfresh) hndm (by rw [hcols]; exact hrect)
  rw [hres]
  have hrows : res.rows = extendPairs cs.length [] t.rows := by
    apply ext_getD _ _ dRow (by rw [hreslen, extendPairs_length])
    intro i hi
    have hit : i < t.rows.length := by rw [← hreslen]; exact hi
    obtain ⟨hdate, hvals⟩ := hresrows i hit
    rw [extendPairs_getD cs.length [] t.rows i hit]
    have hmapj : cs.map (fun c =>
        (retColumn (colAt t ((colIndex c t.cols).getD 0))).getD i none)
        = (List.range cs.length).map (fun j =>
            cellSub1 (cellDiv ((t.rows.getD i dRow).vals.getD j none)
              ((if i = 0 then ([] : List Cell)
                else (t.rows.getD (i - 1) dRow).vals).getD j none))) := by
      rw [map_eq_range_map cs _ ""]
      apply List.map_congr_left
      intro j hjmem
      have hj : j < cs.length := List.mem_range.mp hjmem
      have hcij : colIndex (cs.getD j "") t.cols = some j := by
        rw [hcols]
        exact colIndex_getD_self hnd j hj
      rw [hcij]
      show (retColumn (colAt t j)).getD i none = _
      have hcal : (colAt t j).length = t.rows.length := by
        show (t.rows.map (fun r => r.vals.getD j none)).length = _
        rw [List.length_map]
      rw [retColumn_getD (colAt t j) i (by rw [hcal]; exact hit)]
      have h1 : (colAt t j).getD i none = (t.rows.getD i dRow).vals.getD j none := by
        show (t.rows.map (fun r => r.vals.getD j none)).getD i none = _
        rw [getD_map_lt _ _ i none dRow hit]
      have h2 : (if i = 0 then none else (colAt t j).getD (i - 1) none)
          = ((if i = 0 then ([] : List Cell)
              else (t.rows.getD (i - 1) dRow).vals).getD j none) := by
        by_cases hi0 : i = 0
        · rw [if_pos hi0, if_pos hi0]
          rfl
        · rw [if_neg hi0, if_neg hi0]
          show (t.rows.map (fun r => r.vals.getD j none)).getD (i - 1) none = _
          rw [getD_map_lt _ _ (i - 1) none dRow (by omega)]
      rw [h1, h2]
    calc res.rows.getD i dRow
        = ⟨(res.rows.getD i dRow).date, (res.rows.getD i dRow).vals⟩ := rfl
      _ = ⟨(t.rows.getD i dRow).date,
            (t.rows.getD i dRow).vals ++ cs.map (fun c =>
              (retColumn (colAt t ((colIndex c t.cols).getD 0))).getD i none)⟩ := by
            rw [hdate, hvals]
      _ = _ := by rw [hmapj]
  have hcols2 : res.cols = cs ++ cs.map (fun c => c ++ "index") := by
    rw [hrescols, hcols]
  calc (some res : Option Table) = some ⟨res.cols, res.rows⟩ := rfl
    _ = _ := by rw [hcols2, hrows]

lemma pipeline_rows_eq_init (cs : List String) (hfresh : ∀ c ∈ cs, (c ++ "index") ∉ cs)
    (hne : cs ≠ []) (rows : List Row)
    (hrect : ∀ r ∈ rows, r.vals.length = cs.length) :
    ((extendPairs cs.length [] rows).filter (fun r => r.vals.all Option.isSome)).map
        (fun r => ({ date := r.date,
                     vals := dropRowCells (cs ++ cs.map (fun c => c ++ "index"))
                       r.vals cs } : Row))
      = returnsSpec cs.length rows := by
  cases rows with
  | nil => rfl
  | cons r rs =>
    have hn : 0 < cs.length := by
      cases cs with
      | nil => exact absurd rfl hne
      | cons a as => simp
    have hfail : (r.vals ++ (List.range cs.length).map (fun j =>
        cellSub1 (cellDiv (r.vals.getD j none) (([] : List Cell).getD j none)))).all
          Option.isSome = false := by
      rw [List.all_append]
      have h0 : (cellSub1 (cellDiv (r.vals.getD 0 none) (([] : List Cell).getD 0 none)))
          ∈ (List.range cs.length).map (fun j =>
              cellSub1 (cellDiv (r.vals.getD j none) (([] : List Cell).getD j none))) :=
        List.mem_map_of_mem _ (List.mem_range.mpr hn)
      have hnone : (cellSub1 (cellDiv (r.vals.getD 0 none)
          (([] : List Cell).getD 0 none))).isSome = false := by
        cases r.vals.getD 0 none <;> rfl
      have hallf : ((List.range cs.length).map (fun j =>
          cellSub1 (cellDiv (r.vals.getD j none)
            (([] : List Cell).getD j none)))).all Option.isSome = false := by
        apply List.all_eq_false.mpr
        exact ⟨_, h0, by rw [hnone]; simp⟩
      rw [hallf, Bool.and_false]
    have hext : extendPairs cs.length ([] : List Cell) (r :: rs)
        = { r with vals := r.vals ++ (List.range cs.length).map (fun j =>
            cellSub1 (cellDiv (r.vals.getD j none) (([] : List Cell).getD j none))) }
          :: extendPairs cs.length r.vals rs := rfl
    rw [hext]
    rw [@List.filter_cons_of_neg Row (fun r => r.vals.all Option.isSome)
      ({ date := r.date,
         vals := r.vals ++ (List.range cs.length).map (fun j =>
           cellSub1 (cellDiv (r.vals.getD j none) (([] : List Cell).getD j none))) } : Row)
      (extendPairs cs.length r.vals rs)
      (show ¬((r.vals ++ (List.range cs.length).map (fun j =>
        cellSub1 (cellDiv (r.vals.getD j none) (([] : List Cell).getD j none)))).all
          Option.isSome = true) from by rw [hfail]; simp)]
    have hmain := pipeline_rows_eq cs hfresh rs r (hrect r (by simp))
      (fun r' h => hrect r' (by simp [h]))
    rw [hmain]
    rfl

lemma monthFilter_cols (freq : String) (t : Table) : (monthFilter freq t).cols = t.cols := by
  unfold monthFilter
  split <;> rfl

lemma monthFilter_len (freq : String) (t : Table) :
    (monthFilter freq t).rows.length ≤ t.rows.length := by
  unfold monthFilter
  split
  · exact List.length_filter_le _ _
  · exact Nat.le_refl _

lemma load_historical_index_eq (cache : Cache) (storage : Storage) (codes : List String)
    (s e : Int) (T : Table)
    (h : (load_historical_index cache storage codes s e).2 = some T) :
    T.cols = codes ∧ T.rows.length = (dateRange s e).length := by
  simp only [load_historical_index] at h
  obtain ⟨ts, hts, h2⟩ := Option.bind_eq_some.mp h
  obtain ⟨data, hdata, h3⟩ := Option.bind_eq_some.mp h2
  unfold setColumns at h3
  split at h3
  case isTrue hcond =>
    injection h3 with h3
    subst h3
    refine ⟨rfl, ?_⟩
    show data.rows.length = _
    unfold backfill_ts at hdata
    rw [if_pos rfl] at hdata
    split at hdata
    case isTrue =>
      injection hdata with hdata
      subst hdata
      show (List.zipWith _ _ _).length = _
      rw [List.length_zipWith, bfillRows_length]
      have hg : (rawGrid (slice_data ts s e).2 s e).length = (dateRange s e).length := by
        simp [rawGrid]
      rw [hg, Nat.min_self]
    case isFalse => simp at hdata
  case isFalse => simp at h3

/-- The whole return pipeline, given the intermediate index table: shared by
the C4 and C5 theorems. -/
lemma returns_pipeline (cache : Cache) (storage : Storage) (codes : List String)
    (s e : Int) (freq : String) (subset : Table)
    (hsub : returnsBase cache storage codes s e freq = some subset)
    (hrect : ∀ r ∈ subset.rows, r.vals.length = codes.length)
    (hne : codes ≠ []) (hnd : codes.Nodup)
    (hfresh : ∀ c ∈ codes, (c ++ "index") ∉ codes) :
    (load_historical_returns cache storage codes s e freq).2
      = some { cols := codes, rows := returnsSpec codes.length subset.rows } := by
  obtain ⟨T, hT, hsubT⟩ : ∃ T, (load_historical_index cache storage codes (s - 1) e).2 = some T
      ∧ subset = monthFilter freq T := by
    unfold returnsBase at hsub
    obtain ⟨T, hT, h2⟩ := Option.map_eq_some'.mp hsub
    exact ⟨T, hT, h2.symm⟩
  have hTcols := (load_historical_index_eq cache storage codes (s - 1) e T hT).1
  have hscols : subset.cols = codes := by
    rw [hsubT, monthFilter_cols, hTcols]
  have haic := addIndexCols_extendPairs codes subset hscols hnd hfresh hrect
  have hrows := pipeline_rows_eq_init codes hfresh hne subset.rows hrect
  have hsnd : (load_historical_returns cache storage codes s e freq).2
      = (returnsBase cache storage codes s e freq).bind (fun subset =>
          (addIndexCols subset codes).bind (fun t1 =>
            setColumns (dropColsByName (dropnaRows t1) codes) ("date" :: codes))) := rfl
  rw [hsnd, hsub]
  show (addIndexCols subset codes).bind (fun t1 =>
    setColumns (dropColsByName (dropnaRows t1) codes) ("date" :: codes)) = _
  rw [haic]
  show setColumns
      { cols := (codes ++ codes.map (fun c => c ++ "index")).filter
          (fun c => decide (c ∉ codes)),
        rows := ((extendPairs codes.length [] subset.rows).filter
          (fun r => r.vals.all Option.isSome)).map
            (fun r => ({ date := r.date,
                         vals := dropRowCells (codes ++ codes.map (fun c => c ++ "index"))
                           r.vals codes } : Row)) }
      ("date" :: codes) = _
  have hcolsF : (codes ++ codes.map (fun c => c ++ "index")).filter
      (fun c => decide (c ∉ codes)) = codes.map (fun c => c ++ "index") := by
    rw [List.filter_append]
    have h1 : codes.filter (fun c => decide (c ∉ codes)) = [] := by
      rw [List.filter_eq_nil_iff]
      intro a ha
      simp [ha]
    have h2 : (codes.map (fun c => c ++ "index")).filter (fun c => decide (c ∉ codes))
        = codes.map (fun c => c ++ "index") := by
      rw [List.filter_eq_self]
      intro a ha
      obtain ⟨c0, hc0, rfl⟩ := List.mem_map.mp ha
      simp [hfresh c0 hc0]
    rw [h1, h2]
    rfl
  rw [hcolsF, hrows]
  unfold setColumns
  rw [if_pos (by simp)]
  rfl

/-- C4.  For requested codes (non-empty, pairwise distinct, with the derived
`<code>index` names not clashing with the codes) and a rectangular index
table, `load_historical_returns` outputs exactly the spec's formula: one row
per consecutive pair of complete rows of the (possibly month-end-filtered)
sequence, carrying `return[t] = level[t] / level[t-1] - 1` per code, computed
from the immediately preceding row; every row left incomplete after the shift
(the first row, and any row adjacent to an unfilled missing level) is
dropped. -/
theorem returns_match_spec_formula (cache : Cache) (storage : Storage)
    (codes : List String) (s e : Int) (freq : String) (subset : Table)
    (hsub : returnsBase cache storage codes s e freq = some subset)
    (hrect : ∀ r ∈ subset.rows, r.vals.length = codes.length)
    (hne : codes ≠ []) (hnd : codes.Nodup)
    (hfresh : ∀ c ∈ codes, (c ++ "index") ∉ codes) :
    (load_historical_returns cache storage codes s e freq).2
      = some { cols := codes, rows := returnsSpec codes.length subset.rows } :=
  returns_pipeline cache storage codes s e freq subset hsub hrect hne hnd hfresh

/-- A three-day price panel served by storage for the C4 witness. -/
def tThreeDays : Table :=
  { cols := ["A"],
    rows := [⟨DateVal.dt 10, [some 100]⟩, ⟨DateVal.dt 11, [some 110]⟩,
             ⟨DateVal.dt 12, [some 220]⟩] }

/-- Storage holding only the price panel `tThreeDays`. -/
def stoThreeDays : Storage := fun k => if k = fund_prices_path then some tThreeDays else none

/-- The index table `load_historical_returns` derives from over `[11, 12]`
(one extra day of history pulls day 10 in). -/
def subThreeDays : Table :=
  { cols := ["A"],
    rows := [⟨DateVal.dt 10, [some 100]⟩, ⟨DateVal.dt 11, [some 110]⟩,
             ⟨DateVal.dt 12, [some 220]⟩] }

/-- Witness for `returns_match_spec_formula` on a concrete three-day panel. -/
theorem returns_match_spec_formula_witness :
    returnsBase [] stoThreeDays ["A"] 11 12 "daily" = some subThreeDays ∧
    (load_historical_returns [] stoThreeDays ["A"] 11 12 "daily").2
      = some { cols := ["A"], rows := returnsSpec 1 subThreeDays.rows } :=
  ⟨by decide,
   returns_match_spec_formula [] stoThreeDays ["A"] 11 12 "daily" subThreeDays
     (by decide) (by decide) (by decide) (by decide) (by decide)⟩

/-- A two-day price panel: day 10 and day 11. -/
def tTwoDays : Table :=
  { cols := ["A"], rows := [⟨DateVal.dt 10, [some 100]⟩, ⟨DateVal.dt 11, [some 110]⟩] }

/-- Storage holding only the price panel `tTwoDays`. -/
def stoTwoDays : Storage := fun k => if k = fund_prices_path then some tTwoDays else none

/-- The index table derived for the single-day window `[11, 11]`. -/
def subTwoDays : Table :=
  { cols := ["A"], rows := [⟨DateVal.dt 10, [some 100]⟩, ⟨DateVal.dt 11, [some 110]⟩] }

/-- The output of `load_historical_returns` for the single-day window
`[11, 11]`: one row, the return of day 11 against day 10. -/
def outSingle : Table :=
  { cols := ["A"], rows := [⟨DateVal.dt 11, [some ((110 : ℚ) / 100 - 1)]⟩] }

/-- Counterexample to C5 as stated: a window that collapses to a single day
(`start_date = end_date = 11`) yields ONE return row, not an empty table,
because the pipeline fetches one extra day of history (day 10) precisely so
the first requested day's return is computable. -/
theorem returns_single_day_cex :
    ((load_historical_returns [] stoTwoDays ["A"] 11 11 "daily").2).map
      (fun t => t.rows.length) = some 1 := by decide

/-- C5 amended.  A window that collapses to a single day yields at most one
row: the return for that day against the prior day's level; the output is
empty only when that return cannot be computed (the claim's "empty" is wrong
in general because the loader requests one extra prior day of history). -/
theorem returns_single_day_at_most_one_row (cache : Cache) (storage : Storage)
    (codes : List String) (s : Int) (freq : String) (out : Table)
    (hne : codes ≠ []) (hnd : codes.Nodup)
    (hfresh : ∀ c ∈ codes, (c ++ "index") ∉ codes)
    (hrect : ∀ T, returnsBase cache storage codes s s freq = some T →
      ∀ r ∈ T.rows, r.vals.length = codes.length)
    (hout : (load_historical_returns cache storage codes s s freq).2 = some out) :
    out.rows.length ≤ 1 := by
  have hsnd : (load_historical_returns cache storage codes s s freq).2
      = (returnsBase cache storage codes s s freq).bind (fun subset =>
          (addIndexCols subset codes).bind (fun t1 =>
            setColumns (dropColsByName (dropnaRows t1) codes) ("date" :: codes))) := rfl
  obtain ⟨subset, hsub, h2⟩ := Option.bind_eq_some.mp (hsnd ▸ hout)
  have hpipe := returns_pipeline cache storage codes s s freq subset hsub
    (hrect subset hsub) hne hnd hfresh
  have houteq : out = { cols := codes, rows := returnsSpec codes.length subset.rows } := by
    have := hpipe.symm.trans hout
    injection this with h
    exact h.symm
  obtain ⟨T, hT, hsubT⟩ : ∃ T, (load_historical_index cache storage codes (s - 1) s).2 = some T
      ∧ subset = monthFilter freq T := by
    unfold returnsBase at hsub
    obtain ⟨T, hT, h3⟩ := Option.map_eq_some'.mp hsub
    exact ⟨T, hT, h3.symm⟩
  have hTlen := (load_historical_index_eq cache storage codes (s - 1) s T hT).2
  have hTlen2 : T.rows.length = 2 := by
    rw [hTlen, dateRange_length]
    omega
  have hslen : subset.rows.length ≤ 2 := by
    rw [hsubT]
    calc (monthFilter freq T).rows.length ≤ T.rows.length := monthFilter_len freq T
      _ = 2 := hTlen2
  have hrs : (returnsSpec codes.length subset.rows).length ≤ subset.rows.length - 1 := by
    unfold returnsSpec
    calc (List.filterMap _ _).length
        ≤ (List.zipWith (fun prev cur => (prev, cur)) subset.rows (subset.rows.drop 1)).length :=
          List.length_filterMap_le _ _
      _ ≤ subset.rows.length - 1 := by
          rw [List.length_zipWith, List.length_drop]
          omega
  rw [houteq]
  show (returnsSpec codes.length subset.rows).length ≤ 1
  omega

/-- Witness for `returns_single_day_at_most_one_row` at the concrete
single-day window `[11, 11]`. -/
theorem returns_single_day_at_most_one_row_witness :
    (load_historical_returns [] stoTwoDays ["A"] 11 11 "daily").2 = some outSingle ∧
    outSingle.rows.length ≤ 1 :=
  ⟨rfl,
   returns_single_day_at_most_one_row [] stoTwoDays ["A"] 11 "daily" outSingle
     (by decide) (by decide) (by decide)
     (by
       intro T hT
       have h2 : (some subTwoDays : Option Table) = some T := by
         rw [← hT]
         decide
       injection h2 with h2
       subst h2
       decide)
     rfl⟩
